import Mathlib

/-!
# Verification of `scheduling_alg.py`

A shallow embedding of the CPU-scheduling simulator (Process burst state
machine, ready/waiting queue transition logic, and the FCFS, SJF,
Round Robin and MLFQ schedulers), together with theorems settling the
spec claims against it.

Python integers are modelled as `Int`; the mutable `Process` dataclass
becomes an immutable structure threaded through each operation; the
`while ready_queue or waiting_queue` loops become a step function plus a
fuel-indexed runner that returns `none` when fuel runs out before the
loop condition fails.
-/

/-- Embeds the `Process` dataclass: `burst_times` is a list of alternating
CPU and I/O burst durations, with the remaining defaults exactly as in the
Python class (`waiting_time = 0`, `turn_around_time = 0`,
`response_time = -1`, `current_burst_index = 0`, `complete = False`). -/
structure Process where
  burst_times : List Int
  process_name : String
  waiting_time : Int := 0
  turn_around_time : Int := 0
  response_time : Int := -1
  current_burst_index : Nat := 0
  complete : Bool := false
deriving Repr, DecidableEq

/-- `Process.current_burst`: the burst at `current_burst_index`, or `0`
when the index is past the end of the list. -/
def Process.current_burst (p : Process) : Int :=
  p.burst_times.getD p.current_burst_index 0

/-- `Process.advance_burst`: increment the burst index and recompute the
completion flag. -/
def Process.advance_burst (p : Process) : Process :=
  { p with
    current_burst_index := p.current_burst_index + 1,
    complete := decide (p.current_burst_index + 1 ≥ p.burst_times.length) }

/-- `Process.reduce_current_burst`: consume up to `time` units of the
current burst, advancing the burst index when the burst reaches zero.
Returns the amount actually consumed together with the updated process
(the Python method mutates `self` and returns the amount). -/
def Process.reduce_current_burst (p : Process) (time : Int) : Int × Process :=
  if p.current_burst_index ≥ p.burst_times.length then (0, p)
  else
    let actual := min time (p.burst_times.getD p.current_burst_index 0)
    let nb := p.burst_times.set p.current_burst_index
      (p.burst_times.getD p.current_burst_index 0 - actual)
    let p' := { p with burst_times := nb }
    if nb.getD p.current_burst_index 0 ≤ 0 then (actual, p'.advance_burst)
    else (actual, p')

/-- One waiting-queue scan step of `Scheduler.update_waiting_processes`
applied to a single process: reduce the current (I/O) burst by the elapsed
time and add the amount actually consumed to `waiting_time`. -/
def touchWaiting (dt : Int) (p : Process) : Process :=
  let r := p.reduce_current_burst dt
  { r.2 with waiting_time := r.2.waiting_time + r.1 }

/-- `Scheduler.update_waiting_processes`: scan the waiting queue in order;
each process has its current burst reduced by `dt` and its waiting time
incremented by the amount consumed; processes whose burst index is now
even are appended to the ready queue (in scan order) and dropped from the
waiting queue.  Returns `(new waiting queue, new ready queue)`.
(The Python version collects such processes in `processes_to_remove` and
deletes them afterwards with `list.remove`, which compares dataclasses by
value; since the move criterion `current_burst_index % 2 == 0` is itself a
function of the value, that deletion removes exactly the moved processes,
i.e. it is this filter.) -/
def update_waiting_processes (waiting ready : List Process) (dt : Int) :
    List Process × List Process :=
  match waiting with
  | [] => ([], ready)
  | p :: rest =>
    let p' := touchWaiting dt p
    if p'.current_burst_index % 2 = 0 then
      update_waiting_processes rest (ready ++ [p']) dt
    else
      let r := update_waiting_processes rest ready dt
      (p' :: r.1, r.2)

/-- The state threaded through every scheduling loop: the ready queue (the
Python deque, head at the left), the waiting list, the terminated list,
and the scheduler's `time` and `cpu_util` counters. -/
structure SchedState where
  ready : List Process
  waiting : List Process
  terminated : List Process
  time : Int
  cpu_util : Int
deriving Repr, DecidableEq

/-- The `if process.response_time == -1: process.response_time = self.time`
guard run at every dispatch. -/
def respSet (t : Int) (p : Process) : Process :=
  if p.response_time = -1 then { p with response_time := t } else p

/-- The loop condition: `while ready_queue or waiting_queue` fails exactly
when both queues are empty. -/
def schedDone (s : SchedState) : Bool :=
  s.ready.isEmpty && s.waiting.isEmpty

/-- One iteration of the `FCFSScheduler.schedule` while-loop: either an
idle tick (ready queue empty) or a non-preemptive dispatch of the head of
the ready queue, running its whole current burst. -/
def fcfsStep (s : SchedState) : SchedState :=
  match s.ready with
  | [] =>
    let uw := update_waiting_processes s.waiting [] 1
    { s with time := s.time + 1, waiting := uw.1, ready := uw.2 }
  | p :: rest =>
    let p1 := respSet s.time p
    let bt := p1.current_burst
    let p2 := p1.advance_burst
    let uw := update_waiting_processes s.waiting rest bt
    if p2.current_burst_index ≥ p2.burst_times.length then
      { ready := uw.2, waiting := uw.1,
        terminated := s.terminated ++
          [{ p2 with complete := true, turn_around_time := s.time + bt }],
        time := s.time + bt, cpu_util := s.cpu_util + bt }
    else
      { ready := uw.2, waiting := uw.1 ++ [p2],
        terminated := s.terminated,
        time := s.time + bt, cpu_util := s.cpu_util + bt }

/-- The stable sort by `current_burst` used by `SJFScheduler`
(`temp.sort(key=lambda p: p.current_burst)`; Python's sort is stable, as
is `List.mergeSort`). -/
def sortByBurst (l : List Process) : List Process :=
  l.mergeSort (fun a b => decide (a.current_burst ≤ b.current_burst))

/-- One iteration of the `SJFScheduler.schedule` while-loop: as FCFS, but
the ready queue is re-sorted by `current_burst` after the waiting-queue
update in both the idle-tick and the dispatch branch. -/
def sjfStep (s : SchedState) : SchedState :=
  match s.ready with
  | [] =>
    let uw := update_waiting_processes s.waiting [] 1
    { s with time := s.time + 1, waiting := uw.1, ready := sortByBurst uw.2 }
  | p :: rest =>
    let p1 := respSet s.time p
    let bt := p1.current_burst
    let p2 := p1.advance_burst
    let uw := update_waiting_processes s.waiting rest bt
    if p2.current_burst_index ≥ p2.burst_times.length then
      { ready := sortByBurst uw.2, waiting := uw.1,
        terminated := s.terminated ++
          [{ p2 with complete := true, turn_around_time := s.time + bt }],
        time := s.time + bt, cpu_util := s.cpu_util + bt }
    else
      { ready := sortByBurst uw.2, waiting := uw.1 ++ [p2],
        terminated := s.terminated,
        time := s.time + bt, cpu_util := s.cpu_util + bt }

/-- One iteration of the `RoundRobinScheduler.schedule` while-loop with
quantum `q`.  When the current burst exceeds the quantum the burst value
is decremented by `q` in place (no index advance) and the process is
appended to the ready-queue tail before the waiting queue is updated;
otherwise the whole burst is consumed as in FCFS. -/
def rrStep (q : Int) (s : SchedState) : SchedState :=
  match s.ready with
  | [] =>
    let uw := update_waiting_processes s.waiting [] 1
    { s with time := s.time + 1, waiting := uw.1, ready := uw.2 }
  | p :: rest =>
    let p1 := respSet s.time p
    if q < p1.current_burst then
      let p2 := { p1 with
        burst_times := p1.burst_times.set p1.current_burst_index
          (p1.current_burst - q) }
      let uw := update_waiting_processes s.waiting (rest ++ [p2]) q
      { ready := uw.2, waiting := uw.1, terminated := s.terminated,
        time := s.time + q, cpu_util := s.cpu_util + q }
    else
      let bt := p1.current_burst
      let p2 := p1.advance_burst
      let uw := update_waiting_processes s.waiting rest bt
      if p2.current_burst_index ≥ p2.burst_times.length then
        { ready := uw.2, waiting := uw.1,
          terminated := s.terminated ++
            [{ p2 with complete := true, turn_around_time := s.time + bt }],
          time := s.time + bt, cpu_util := s.cpu_util + bt }
      else
        { ready := uw.2, waiting := uw.1 ++ [p2],
          terminated := s.terminated,
          time := s.time + bt, cpu_util := s.cpu_util + bt }

/-- Fuel-indexed runner for a scheduling loop: keep applying `step` while
the loop condition holds; `none` means the fuel ran out before the loop
exited (a run that converges is one for which some fuel yields `some`). -/
def schedRun (step : SchedState → SchedState) : Nat → SchedState → Option SchedState
  | 0, s => if schedDone s then some s else none
  | f + 1, s => if schedDone s then some s else schedRun step f (step s)

/-- `k`-fold application of a step function (the state at the head of the
`k`-th loop iteration). -/
def stepN (step : SchedState → SchedState) : Nat → SchedState → SchedState
  | 0, s => s
  | k + 1, s => stepN step k (step s)

/-- Number of idle ticks (iterations entered with an empty ready queue)
performed during the first `f` iterations of a run, stopping when the
loop condition fails. -/
def countIdleRun (step : SchedState → SchedState) : Nat → SchedState → Nat
  | 0, _ => 0
  | f + 1, s =>
    if schedDone s then 0
    else (if s.ready.isEmpty then 1 else 0) + countIdleRun step f (step s)

/-- Initial state of `FCFSScheduler.schedule`: the ready queue is the
input list, both the waiting queue and the terminated list are empty, and
`self.time` and `self.cpu_util` are reset to 0 (the method always resets
them, even when a caller assigned them beforehand). -/
def fcfsInit (ps : List Process) : SchedState := ⟨ps, [], [], 0, 0⟩

/-- Initial state of `SJFScheduler.schedule`: the input list is stably
sorted by `current_burst` before the loop starts. -/
def sjfInit (ps : List Process) : SchedState := ⟨sortByBurst ps, [], [], 0, 0⟩

/-- Initial state of `RoundRobinScheduler.schedule` with the given
`start_time` and `start_cpu_util` arguments. -/
def rrInit (ps : List Process) (t u : Int) : SchedState := ⟨ps, [], [], t, u⟩

/-- `FCFSScheduler.schedule` as a fuel-indexed function. -/
def fcfsRun : Nat → SchedState → Option SchedState := schedRun fcfsStep

/-- `SJFScheduler.schedule`'s loop as a fuel-indexed function. -/
def sjfRun : Nat → SchedState → Option SchedState := schedRun sjfStep

/-- `RoundRobinScheduler.schedule`'s loop with quantum `q` as a
fuel-indexed function. -/
def rrRun (q : Int) : Nat → SchedState → Option SchedState := schedRun (rrStep q)

/-- `MLFQScheduler.schedule`: run RR(5) from counters (0,0) over the input;
run RR(10) over the final ready queue of that pass, carrying its counters
and a fresh empty waiting queue; finally run FCFS over what remains — note
that `FCFSScheduler.schedule` resets `self.time`/`self.cpu_util` to 0, so
the assignments `fcfs.time = time; fcfs.cpu_util = cpu_util` made by the
Python code before the call are overwritten.  Returns the FCFS pass's
terminated list and final counters, which the Python code copies back into
the MLFQ scheduler and returns. -/
def mlfqRun (fuel : Nat) (ps : List Process) :
    Option (List Process × Int × Int) :=
  match rrRun 5 fuel (rrInit ps 0 0) with
  | none => none
  | some s1 =>
    match rrRun 10 fuel (rrInit s1.ready s1.time s1.cpu_util) with
    | none => none
    | some s2 =>
      match fcfsRun fuel (fcfsInit s2.ready) with
      | none => none
      | some s3 => some (s3.terminated, s3.time, s3.cpu_util)

/-- The processes a waiting-queue scan for elapsed time `dt` moves into
the ready queue: those whose burst index is even after the update, in
scan order. -/
def ioArrivals (dt : Int) (w : List Process) : List Process :=
  (w.map (touchWaiting dt)).filter (fun p => p.current_burst_index % 2 == 0)

/-- The processes a waiting-queue scan for elapsed time `dt` leaves in
the waiting queue: those whose burst index is still odd after the
update, in scan order. -/
def ioStays (dt : Int) (w : List Process) : List Process :=
  (w.map (touchWaiting dt)).filter (fun p => p.current_burst_index % 2 == 1)

theorem update_waiting_fst (w r : List Process) (dt : Int) :
    (update_waiting_processes w r dt).1 = ioStays dt w := by
  induction w generalizing r with
  | nil => rfl
  | cons p rest ih =>
    simp only [update_waiting_processes, ioStays, List.map_cons,
      List.filter_cons]
    by_cases h : (touchWaiting dt p).current_burst_index % 2 = 0
    · have hb : ((touchWaiting dt p).current_burst_index % 2 == 1) = false := by
        simp [h]
      rw [if_pos h, hb, ih, ioStays]
      simp
    · have h1 : (touchWaiting dt p).current_burst_index % 2 = 1 := by omega
      have hb : ((touchWaiting dt p).current_burst_index % 2 == 1) = true := by
        simp [h1]
      rw [if_neg h, hb]
      show touchWaiting dt p :: (update_waiting_processes rest r dt).1
          = if true = true then _ else _
      rw [if_pos rfl, ih, ioStays]

theorem update_waiting_snd (w r : List Process) (dt : Int) :
    (update_waiting_processes w r dt).2 = r ++ ioArrivals dt w := by
  induction w generalizing r with
  | nil => simp [update_waiting_processes, ioArrivals]
  | cons p rest ih =>
    simp only [update_waiting_processes, ioArrivals, List.map_cons,
      List.filter_cons]
    by_cases h : (touchWaiting dt p).current_burst_index % 2 = 0
    · have hb : ((touchWaiting dt p).current_burst_index % 2 == 0) = true := by
        simp [h]
      rw [if_pos h, hb, ih, ioArrivals]
      show _ = r ++ if true = true then _ else _
      rw [if_pos rfl]
      simp
    · have hb : ((touchWaiting dt p).current_burst_index % 2 == 0) = false := by
        simp [h]
      rw [if_neg h, hb]
      show (update_waiting_processes rest r dt).2
          = r ++ if false = true then _ else _
      rw [if_neg (by simp), ih, ioArrivals]

theorem reduce_amount (p : Process) (dt : Int) (h : 0 ≤ dt) :
    (p.reduce_current_burst dt).1 = min dt p.current_burst := by
  simp only [Process.reduce_current_burst]
  split
  · rename_i hlen
    rw [Process.current_burst, List.getD_eq_getElem?_getD,
      List.getElem?_eq_none hlen]
    simp [min_eq_right h]
  · split <;> simp [Process.current_burst]

theorem reduce_burst_value (p : Process) (dt : Int) (h : 0 ≤ dt) :
    (p.reduce_current_burst dt).2.burst_times.getD p.current_burst_index 0
      = p.current_burst - min dt p.current_burst := by
  simp only [Process.reduce_current_burst]
  split
  · rename_i hlen
    rw [Process.current_burst, List.getD_eq_getElem?_getD,
      List.getElem?_eq_none hlen]
    simp [min_eq_right h]
  · rename_i hlen
    rw [Nat.not_le] at hlen
    rw [Process.current_burst]
    split <;>
      simp [Process.advance_burst, List.getElem?_set_self hlen]

theorem reduce_index (p : Process) (dt : Int) :
    (p.reduce_current_burst dt).2.current_burst_index = p.current_burst_index
    ∨ (p.reduce_current_burst dt).2.current_burst_index
        = p.current_burst_index + 1 := by
  simp only [Process.reduce_current_burst]
  split
  · exact Or.inl rfl
  · split
    · exact Or.inr rfl
    · exact Or.inl rfl

theorem reduce_fields (p : Process) (dt : Int) :
    (p.reduce_current_burst dt).2.response_time = p.response_time
    ∧ (p.reduce_current_burst dt).2.turn_around_time = p.turn_around_time
    ∧ (p.reduce_current_burst dt).2.process_name = p.process_name
    ∧ (p.reduce_current_burst dt).2.waiting_time = p.waiting_time := by
  simp only [Process.reduce_current_burst]
  split
  · exact ⟨rfl, rfl, rfl, rfl⟩
  · split <;> exact ⟨rfl, rfl, rfl, rfl⟩

theorem touchWaiting_fields (dt : Int) (p : Process) :
    (touchWaiting dt p).response_time = p.response_time
    ∧ (touchWaiting dt p).turn_around_time = p.turn_around_time
    ∧ (touchWaiting dt p).process_name = p.process_name :=
  ⟨(reduce_fields p dt).1, (reduce_fields p dt).2.1, (reduce_fields p dt).2.2.1⟩

theorem touchWaiting_waiting_time (dt : Int) (p : Process) (h : 0 ≤ dt) :
    (touchWaiting dt p).waiting_time
      = p.waiting_time + min dt p.current_burst := by
  show (p.reduce_current_burst dt).2.waiting_time + (p.reduce_current_burst dt).1
      = p.waiting_time + min dt p.current_burst
  rw [reduce_amount p dt h, (reduce_fields p dt).2.2.2]

/-- C10: `reduce_current_burst` on an already-complete process (burst
index at or past the end of the burst list) returns 0 and leaves every
field of the process unchanged. -/
theorem reduce_current_burst_complete (p : Process) (t : Int)
    (h : p.current_burst_index ≥ p.burst_times.length) :
    p.reduce_current_burst t = (0, p) := by
  rw [Process.reduce_current_burst, if_pos h]

/-- Witness for C10 at a concrete complete process. -/
theorem reduce_current_burst_complete_witness :
    Process.reduce_current_burst ⟨[1, 2], "A", 0, 0, -1, 5, true⟩ 7
      = (0, ⟨[1, 2], "A", 0, 0, -1, 5, true⟩) :=
  reduce_current_burst_complete ⟨[1, 2], "A", 0, 0, -1, 5, true⟩ 7 (by decide)

/-- C9 (Scenario C): FCFS on the single process A = [2, 3, 2].  After the
first iteration A has been dispatched at clock 0 (responseTime 0), its
first CPU burst ran to clock 2 and it sits in the waiting queue with I/O
remaining 3; three idle ticks drain the I/O one unit per tick, so after
the fourth iteration the clock is 5 and A is back in the ready queue with
waitingTime 3; the run converges with A dispatched again at clock 5,
completing at clock 7 with turnaroundTime 7. -/
theorem fcfs_scenario_io :
    stepN fcfsStep 1 (fcfsInit [⟨[2, 3, 2], "A", 0, 0, -1, 0, false⟩])
      = ⟨[], [⟨[2, 3, 2], "A", 0, 0, 0, 1, false⟩], [], 2, 2⟩
    ∧ stepN fcfsStep 2 (fcfsInit [⟨[2, 3, 2], "A", 0, 0, -1, 0, false⟩])
      = ⟨[], [⟨[2, 2, 2], "A", 1, 0, 0, 1, false⟩], [], 3, 2⟩
    ∧ stepN fcfsStep 3 (fcfsInit [⟨[2, 3, 2], "A", 0, 0, -1, 0, false⟩])
      = ⟨[], [⟨[2, 1, 2], "A", 2, 0, 0, 1, false⟩], [], 4, 2⟩
    ∧ stepN fcfsStep 4 (fcfsInit [⟨[2, 3, 2], "A", 0, 0, -1, 0, false⟩])
      = ⟨[⟨[2, 0, 2], "A", 3, 0, 0, 2, false⟩], [], [], 5, 2⟩
    ∧ fcfsRun 6 (fcfsInit [⟨[2, 3, 2], "A", 0, 0, -1, 0, false⟩])
      = some ⟨[], [], [⟨[2, 0, 2], "A", 3, 7, 0, 3, true⟩], 7, 4⟩ := by
  refine ⟨by decide, by decide, by decide, by decide, by decide⟩

/-- Counterexample to C3: an FCFS run on a process with an empty burst
sequence does converge — the process is dispatched once with a
zero-length burst, `advance_burst` pushes its index past the (empty)
list, and it is terminated immediately, after which both queues are
empty and the loop exits. -/
theorem fcfs_empty_bursts_converges :
    fcfsRun 2 (fcfsInit [⟨[], "E", 0, 0, -1, 0, false⟩])
      = some ⟨[], [], [⟨[], "E", 0, 0, 0, 1, true⟩], 0, 0⟩ := by decide

/-- C4: one call of the queue transition logic with elapsed duration
`dt ≥ 0`, on a waiting queue whose members all await I/O (odd burst
index, the run invariant): every waiting process has its current I/O
burst reduced by `min dt (remaining I/O)` — the amount returned by
`reduce_current_burst` is that minimum, the stored burst value drops by
it — and its `waiting_time` incremented by exactly that amount; the
processes whose burst index thereby flips to an even (CPU) index are
exactly the ones appended to the ready-queue tail, in scan order
(`ioArrivals`), and the others stay in the waiting queue (`ioStays`). -/
theorem update_waiting_transition (w r : List Process) (dt : Int)
    (hdt : 0 ≤ dt)
    (hodd : ∀ p ∈ w, p.current_burst_index % 2 = 1) :
    (update_waiting_processes w r dt).1 = ioStays dt w
    ∧ (update_waiting_processes w r dt).2 = r ++ ioArrivals dt w
    ∧ ∀ p ∈ w,
        (p.reduce_current_burst dt).1 = min dt p.current_burst
        ∧ (touchWaiting dt p).waiting_time
            = p.waiting_time + min dt p.current_burst
        ∧ (touchWaiting dt p).burst_times.getD p.current_burst_index 0
            = p.current_burst - min dt p.current_burst
        ∧ ((touchWaiting dt p).current_burst_index % 2 = 0 ↔
            (touchWaiting dt p).current_burst_index
              = p.current_burst_index + 1) := by
  refine ⟨update_waiting_fst w r dt, update_waiting_snd w r dt, ?_⟩
  intro p hp
  have hidx : (touchWaiting dt p).current_burst_index
      = (p.reduce_current_burst dt).2.current_burst_index := rfl
  have hbt : (touchWaiting dt p).burst_times
      = (p.reduce_current_burst dt).2.burst_times := rfl
  refine ⟨reduce_amount p dt hdt, touchWaiting_waiting_time dt p hdt, ?_, ?_⟩
  · rw [hbt]; exact reduce_burst_value p dt hdt
  · rw [hidx]
    have h1 := reduce_index p dt
    have h2 := hodd p hp
    omega

/-- Witness for C4 at a concrete waiting queue. -/
theorem update_waiting_transition_witness :
    (update_waiting_processes [⟨[2, 3, 2], "A", 0, 0, 0, 1, false⟩] [] 2).2
      = [] ++ ioArrivals 2 [⟨[2, 3, 2], "A", 0, 0, 0, 1, false⟩] :=
  (update_waiting_transition [⟨[2, 3, 2], "A", 0, 0, 0, 1, false⟩] [] 2
    (by decide) (by decide)).2.1

theorem schedRun_done (step : SchedState → SchedState) (f : Nat)
    (s s' : SchedState) (h : schedRun step f s = some s') :
    s'.ready = [] ∧ s'.waiting = [] := by
  induction f generalizing s with
  | zero =>
    rw [schedRun] at h
    split at h
    · rename_i hd
      cases h
      rw [schedDone, Bool.and_eq_true, List.isEmpty_iff, List.isEmpty_iff] at hd
      exact hd
    · cases h
  | succ f ih =>
    rw [schedRun] at h
    split at h
    · rename_i hd
      cases h
      rw [schedDone, Bool.and_eq_true, List.isEmpty_iff, List.isEmpty_iff] at hd
      exact hd
    · exact ih _ h

theorem schedRun_of_done (step : SchedState → SchedState) (f : Nat)
    (s : SchedState) (h : schedDone s = true) :
    schedRun step f s = some s := by
  cases f <;> simp [schedRun, h]

/-- Counterexample to C2's counter claim: on the one-process input
B = [3], the RR(5) pass ends with clock 3 and utilization 3, but the MLFQ
run returns clock 0 and utilization 0 (the final FCFS pass resets the
scheduler counters), so MLFQ's final counters do not equal those of the
RR(5) pass. -/
theorem mlfq_resets_counters :
    mlfqRun 2 [⟨[3], "B", 0, 0, -1, 0, false⟩] = some ([], 0, 0)
    ∧ rrRun 5 2 (rrInit [⟨[3], "B", 0, 0, -1, 0, false⟩] 0 0)
        = some ⟨[], [], [⟨[3], "B", 0, 3, 0, 1, true⟩], 3, 3⟩
    ∧ (0 : Int) ≠ 3 := by
  refine ⟨by decide, by decide, by decide⟩

/-- C2 amended: whenever the RR(5) pass of an MLFQ run converges, it
ends with empty ready and waiting queues, so RR(10) receives an empty
queue and performs no dispatches (its output state equals its input
state, counters included), and the final FCFS pass likewise dispatches
nothing — but because `FCFSScheduler.schedule` resets `self.time` and
`self.cpu_util` to zero, the MLFQ run returns an empty terminated list
with clock 0 and utilization 0 rather than the RR(5) counters. -/
theorem mlfq_degenerates (f : Nat) (ps : List Process) (s1 : SchedState)
    (h : rrRun 5 f (rrInit ps 0 0) = some s1) :
    s1.ready = [] ∧ s1.waiting = []
    ∧ rrRun 10 f (rrInit s1.ready s1.time s1.cpu_util)
        = some (rrInit s1.ready s1.time s1.cpu_util)
    ∧ fcfsRun f (fcfsInit s1.ready) = some (fcfsInit s1.ready)
    ∧ mlfqRun f ps = some ([], 0, 0) := by
  obtain ⟨hr, hw⟩ := schedRun_done (rrStep 5) f _ _ h
  have hdone2 : schedDone (rrInit s1.ready s1.time s1.cpu_util) = true := by
    simp [schedDone, rrInit, hr]
  have h2 := schedRun_of_done (rrStep 10) f _ hdone2
  have hdone3 : schedDone (fcfsInit s1.ready) = true := by
    simp [schedDone, fcfsInit, hr]
  have h3 := schedRun_of_done fcfsStep f _ hdone3
  refine ⟨hr, hw, h2, h3, ?_⟩
  rw [mlfqRun]
  rw [show rrRun 5 f (rrInit ps 0 0) = some s1 from h]
  simp only [rrInit, rrRun, fcfsRun] at h2 h3 ⊢
  rw [h2]
  dsimp only
  rw [h3]
  simp [fcfsInit]

/-- Witness for C2's amended claim at a concrete input. -/
theorem mlfq_degenerates_witness :
    mlfqRun 2 [⟨[3], "B2", 0, 0, -1, 0, false⟩] = some ([], 0, 0) :=
  (mlfq_degenerates 2 [⟨[3], "B2", 0, 0, -1, 0, false⟩]
    ⟨[], [], [⟨[3], "B2", 0, 3, 0, 1, true⟩], 3, 3⟩ (by decide)).2.2.2.2

/-- The requeued process built by Round Robin's preemption branch: the
dispatched process (after the response-time guard) with its current
burst value decremented by the quantum in place. -/
def rrPreempted (q t : Int) (p : Process) : Process :=
  { respSet t p with
    burst_times := (respSet t p).burst_times.set
      (respSet t p).current_burst_index ((respSet t p).current_burst - q) }

theorem respSet_burst_fields (t : Int) (p : Process) :
    (respSet t p).burst_times = p.burst_times
    ∧ (respSet t p).current_burst_index = p.current_burst_index
    ∧ (respSet t p).current_burst = p.current_burst
    ∧ (respSet t p).waiting_time = p.waiting_time
    ∧ (respSet t p).turn_around_time = p.turn_around_time := by
  rw [respSet]
  split <;> exact ⟨rfl, rfl, rfl, rfl, rfl⟩

theorem current_burst_pos_index_lt (p : Process) (h : p.current_burst ≠ 0) :
    p.current_burst_index < p.burst_times.length := by
  by_contra hc
  rw [Nat.not_lt] at hc
  apply h
  rw [Process.current_burst, List.getD_eq_getElem?_getD,
    List.getElem?_eq_none hc]
  rfl

theorem rrPreempted_index (q t : Int) (p : Process) :
    (rrPreempted q t p).current_burst_index = p.current_burst_index :=
  (respSet_burst_fields t p).2.1

theorem rrPreempted_current_burst (q t : Int) (p : Process)
    (h : (respSet t p).current_burst_index < (respSet t p).burst_times.length) :
    (rrPreempted q t p).current_burst = (respSet t p).current_burst - q := by
  rw [rrPreempted, Process.current_burst]
  show ((respSet t p).burst_times.set (respSet t p).current_burst_index
      ((respSet t p).current_burst - q)).getD (respSet t p).current_burst_index 0
    = (respSet t p).current_burst - q
  rw [List.getD_eq_getElem?_getD, List.getElem?_set_self h]
  rfl

theorem fcfsStep_dispatch (s : SchedState) (p : Process) (rest : List Process)
    (hr : s.ready = p :: rest) :
    fcfsStep s =
      if (respSet s.time p).advance_burst.current_burst_index
          ≥ (respSet s.time p).advance_burst.burst_times.length
      then ⟨rest ++ ioArrivals (respSet s.time p).current_burst s.waiting,
            ioStays (respSet s.time p).current_burst s.waiting,
            s.terminated ++ [{ (respSet s.time p).advance_burst with
              complete := true,
              turn_around_time := s.time + (respSet s.time p).current_burst }],
            s.time + (respSet s.time p).current_burst,
            s.cpu_util + (respSet s.time p).current_burst⟩
      else ⟨rest ++ ioArrivals (respSet s.time p).current_burst s.waiting,
            ioStays (respSet s.time p).current_burst s.waiting
              ++ [(respSet s.time p).advance_burst],
            s.terminated,
            s.time + (respSet s.time p).current_burst,
            s.cpu_util + (respSet s.time p).current_burst⟩ := by
  obtain ⟨rd, w, term, t, u⟩ := s
  simp only at hr
  subst hr
  simp only [fcfsStep]
  rw [update_waiting_fst, update_waiting_snd]

theorem rrStep_preempt (q : Int) (s : SchedState) (p : Process)
    (rest : List Process) (hr : s.ready = p :: rest)
    (hq : q < (respSet s.time p).current_burst) :
    rrStep q s = ⟨rest ++ [rrPreempted q s.time p] ++ ioArrivals q s.waiting,
      ioStays q s.waiting, s.terminated, s.time + q, s.cpu_util + q⟩ := by
  obtain ⟨rd, w, term, t, u⟩ := s
  simp only at hr hq
  subst hr
  simp only [rrStep]
  rw [if_pos hq, update_waiting_fst, update_waiting_snd]
  rfl

theorem rrStep_complete (q : Int) (s : SchedState) (p : Process)
    (rest : List Process) (hr : s.ready = p :: rest)
    (hq : ¬ q < (respSet s.time p).current_burst) :
    rrStep q s =
      if (respSet s.time p).advance_burst.current_burst_index
          ≥ (respSet s.time p).advance_burst.burst_times.length
      then ⟨rest ++ ioArrivals (respSet s.time p).current_burst s.waiting,
            ioStays (respSet s.time p).current_burst s.waiting,
            s.terminated ++ [{ (respSet s.time p).advance_burst with
              complete := true,
              turn_around_time := s.time + (respSet s.time p).current_burst }],
            s.time + (respSet s.time p).current_burst,
            s.cpu_util + (respSet s.time p).current_burst⟩
      else ⟨rest ++ ioArrivals (respSet s.time p).current_burst s.waiting,
            ioStays (respSet s.time p).current_burst s.waiting
              ++ [(respSet s.time p).advance_burst],
            s.terminated,
            s.time + (respSet s.time p).current_burst,
            s.cpu_util + (respSet s.time p).current_burst⟩ := by
  obtain ⟨rd, w, term, t, u⟩ := s
  simp only at hr hq
  subst hr
  simp only [rrStep]
  rw [if_neg hq, update_waiting_fst, update_waiting_snd]

theorem fcfsStep_idle (s : SchedState) (hr : s.ready = []) :
    fcfsStep s = ⟨ioArrivals 1 s.waiting, ioStays 1 s.waiting,
      s.terminated, s.time + 1, s.cpu_util⟩ := by
  obtain ⟨rd, w, term, t, u⟩ := s
  simp only at hr
  subst hr
  simp only [fcfsStep]
  rw [update_waiting_fst, update_waiting_snd]
  simp

theorem rrStep_idle (q : Int) (s : SchedState) (hr : s.ready = []) :
    rrStep q s = ⟨ioArrivals 1 s.waiting, ioStays 1 s.waiting,
      s.terminated, s.time + 1, s.cpu_util⟩ := by
  obtain ⟨rd, w, term, t, u⟩ := s
  simp only at hr
  subst hr
  simp only [rrStep]
  rw [update_waiting_fst, update_waiting_snd]
  simp

/-- C5: in a Round Robin dispatch with quantum `q > 0` (ready-queue head
`p`), if the current burst of the dispatched process exceeds the quantum
then the step advances the clock and the CPU-utilization counter by
exactly `q`, requeues the process at the ready-queue tail (followed only
by the processes returning from I/O during this quantum), does not
terminate it, leaves its burst index unchanged, and decrements its
current burst by exactly `q` (leaving it positive — the burst is not
finished); if the current burst is at most the quantum, the process is
not preempted: the clock and utilization advance by the whole remaining
burst and the burst index is advanced (the process leaves the ready
queue, which keeps only the former tail plus the I/O arrivals). -/
theorem rr_quantum_rule (q : Int) (hq : 0 < q) (s : SchedState)
    (p : Process) (rest : List Process) (hr : s.ready = p :: rest) :
    (q < (respSet s.time p).current_burst →
      (rrStep q s).time = s.time + q
      ∧ (rrStep q s).cpu_util = s.cpu_util + q
      ∧ (rrStep q s).ready
          = rest ++ [rrPreempted q s.time p] ++ ioArrivals q s.waiting
      ∧ (rrStep q s).terminated = s.terminated
      ∧ (rrPreempted q s.time p).current_burst_index = p.current_burst_index
      ∧ (rrPreempted q s.time p).current_burst
          = (respSet s.time p).current_burst - q
      ∧ 0 < (rrPreempted q s.time p).current_burst)
    ∧ (¬ q < (respSet s.time p).current_burst →
      (rrStep q s).time = s.time + (respSet s.time p).current_burst
      ∧ (rrStep q s).cpu_util = s.cpu_util + (respSet s.time p).current_burst
      ∧ (rrStep q s).ready
          = rest ++ ioArrivals (respSet s.time p).current_burst s.waiting
      ∧ (respSet s.time p).advance_burst.current_burst_index
          = p.current_burst_index + 1) := by
  constructor
  · intro hb
    have hlt : (respSet s.time p).current_burst_index
        < (respSet s.time p).burst_times.length := by
      apply current_burst_pos_index_lt
      intro h0
      rw [h0] at hb
      omega
    have hcb := rrPreempted_current_burst q s.time p hlt
    rw [rrStep_preempt q s p rest hr hb]
    refine ⟨rfl, rfl, rfl, rfl, rrPreempted_index q s.time p, hcb, ?_⟩
    rw [hcb]
    omega
  · intro hb
    rw [rrStep_complete q s p rest hr hb]
    have hidx : (respSet s.time p).advance_burst.current_burst_index
        = p.current_burst_index + 1 := by
      rw [Process.advance_burst]
      show (respSet s.time p).current_burst_index + 1
          = p.current_burst_index + 1
      rw [(respSet_burst_fields s.time p).2.1]
    split <;> exact ⟨rfl, rfl, rfl, hidx⟩

/-- Witness for C5 at a concrete dispatch (quantum 2, burst 5). -/
theorem rr_quantum_rule_witness :
    (rrStep 2 ⟨[⟨[5], "A", 0, 0, -1, 0, false⟩], [], [], 0, 0⟩).time = 0 + 2 :=
  ((rr_quantum_rule 2 (by decide)
    ⟨[⟨[5], "A", 0, 0, -1, 0, false⟩], [], [], 0, 0⟩
    ⟨[5], "A", 0, 0, -1, 0, false⟩ [] rfl).1 (by decide)).1

/-- C7: the write discipline of `response_time` and `turn_around_time`
in FCFS and Round Robin steps.  `response_time` is written only by the
dispatch guard `respSet`, which sets it to the current clock exactly
when it still holds the sentinel −1 and is the identity otherwise (so
once set it is never written again); the waiting-queue update and
`advance_burst` never touch either field, and undispatched ready
processes (`rest`) pass through unchanged.  `turn_around_time` is
written only when a dispatch pushes the burst index to the length of the
burst list: the process is then appended to `terminated` carrying
`turn_around_time` equal to the post-dispatch clock; in every other case
(non-completing dispatch, preemption, idle tick) the terminated list and
the dispatched process's `turn_around_time` are unchanged. -/
theorem response_turnaround_discipline :
    (∀ dt p, (touchWaiting dt p).response_time = p.response_time
        ∧ (touchWaiting dt p).turn_around_time = p.turn_around_time)
    ∧ (∀ t p, p.response_time = -1 → (respSet t p).response_time = t)
    ∧ (∀ t p, p.response_time ≠ -1 → respSet t p = p)
    ∧ (∀ p : Process, p.advance_burst.response_time = p.response_time
        ∧ p.advance_burst.turn_around_time = p.turn_around_time)
    ∧ (∀ s p rest, s.ready = p :: rest →
        (fcfsStep s).ready
            = rest ++ ioArrivals (respSet s.time p).current_burst s.waiting
        ∧ ((fcfsStep s).terminated = s.terminated
            ∧ (fcfsStep s).waiting
                = ioStays (respSet s.time p).current_burst s.waiting
                  ++ [(respSet s.time p).advance_burst]
          ∨ (fcfsStep s).terminated
              = s.terminated ++ [{ (respSet s.time p).advance_burst with
                  complete := true, turn_around_time := (fcfsStep s).time }]
            ∧ (respSet s.time p).advance_burst.current_burst_index
                ≥ (respSet s.time p).advance_burst.burst_times.length))
    ∧ (∀ q s p rest, s.ready = p :: rest →
        ¬ q < (respSet s.time p).current_burst →
        (rrStep q s).ready
            = rest ++ ioArrivals (respSet s.time p).current_burst s.waiting
        ∧ ((rrStep q s).terminated = s.terminated
            ∧ (rrStep q s).waiting
                = ioStays (respSet s.time p).current_burst s.waiting
                  ++ [(respSet s.time p).advance_burst]
          ∨ (rrStep q s).terminated
              = s.terminated ++ [{ (respSet s.time p).advance_burst with
                  complete := true, turn_around_time := (rrStep q s).time }]
            ∧ (respSet s.time p).advance_burst.current_burst_index
                ≥ (respSet s.time p).advance_burst.burst_times.length))
    ∧ (∀ q s p rest, s.ready = p :: rest →
        q < (respSet s.time p).current_burst →
        (rrStep q s).ready
            = rest ++ [rrPreempted q s.time p] ++ ioArrivals q s.waiting
        ∧ (rrStep q s).terminated = s.terminated
        ∧ (rrPreempted q s.time p).response_time
            = (respSet s.time p).response_time
        ∧ (rrPreempted q s.time p).turn_around_time = p.turn_around_time)
    ∧ (∀ s, s.ready = [] → (fcfsStep s).terminated = s.terminated)
    ∧ (∀ q s, s.ready = [] → (rrStep q s).terminated = s.terminated) := by
  refine ⟨?_, ?_, ?_, ?_, ?_, ?_, ?_, ?_, ?_⟩
  · intro dt p
    exact ⟨(touchWaiting_fields dt p).1, (touchWaiting_fields dt p).2.1⟩
  · intro t p h
    rw [respSet, if_pos h]
  · intro t p h
    rw [respSet, if_neg h]
  · intro p
    exact ⟨rfl, rfl⟩
  · intro s p rest hr
    rw [fcfsStep_dispatch s p rest hr]
    split
    · rename_i hc
      exact ⟨rfl, Or.inr ⟨rfl, hc⟩⟩
    · exact ⟨rfl, Or.inl ⟨rfl, rfl⟩⟩
  · intro q s p rest hr hq
    rw [rrStep_complete q s p rest hr hq]
    split
    · rename_i hc
      exact ⟨rfl, Or.inr ⟨rfl, hc⟩⟩
    · exact ⟨rfl, Or.inl ⟨rfl, rfl⟩⟩
  · intro q s p rest hr hq
    rw [rrStep_preempt q s p rest hr hq]
    exact ⟨rfl, rfl, rfl, (respSet_burst_fields s.time p).2.2.2.2⟩
  · intro s hr
    rw [fcfsStep_idle s hr]
  · intro q s hr
    rw [rrStep_idle q s hr]

/-- Witness for C7 at a concrete completing FCFS dispatch. -/
theorem response_turnaround_discipline_witness :
    (fcfsStep ⟨[⟨[1], "A", 0, 0, -1, 0, false⟩], [], [], 0, 0⟩).ready
      = [] ++ ioArrivals
          (respSet 0 ⟨[1], "A", 0, 0, -1, 0, false⟩).current_burst [] :=
  (response_turnaround_discipline.2.2.2.2.1
    ⟨[⟨[1], "A", 0, 0, -1, 0, false⟩], [], [], 0, 0⟩
    ⟨[1], "A", 0, 0, -1, 0, false⟩ [] rfl).1

theorem sortByBurst_sorted (l : List Process) :
    List.Pairwise (fun a b => a.current_burst ≤ b.current_burst)
      (sortByBurst l) := by
  have h := @List.sorted_mergeSort Process
    (fun a b => decide (a.current_burst ≤ b.current_burst))
    (by intro a b c hab hbc
        simp only [decide_eq_true_eq] at *
        exact le_trans hab hbc)
    (by intro a b
        simp only [Bool.or_eq_true, decide_eq_true_eq]
        exact le_total _ _)
    l
  exact h.imp (by intro a b hab; simpa using hab)

theorem sortByBurst_filter_burst (l : List Process) (c : Int) :
    (sortByBurst l).filter (fun p => p.current_burst == c)
      = l.filter (fun p => p.current_burst == c) := by
  simp only [sortByBurst]
  have hsub : List.Sublist (l.filter (fun p => p.current_burst == c))
      (l.mergeSort (fun a b => decide (a.current_burst ≤ b.current_burst))) := by
    apply List.sublist_mergeSort
    · intro a b c' hab hbc
      simp only [decide_eq_true_eq] at *
      exact le_trans hab hbc
    · intro a b
      simp only [Bool.or_eq_true, decide_eq_true_eq]
      exact le_total _ _
    · rw [List.pairwise_iff_forall_sublist]
      intro a b hab
      have ha : a ∈ l.filter (fun p => p.current_burst == c) :=
        hab.subset (by simp)
      have hb : b ∈ l.filter (fun p => p.current_burst == c) :=
        hab.subset (by simp)
      rw [List.mem_filter] at ha hb
      simp only [beq_iff_eq] at ha hb
      show decide (a.current_burst ≤ b.current_burst) = true
      rw [ha.2, hb.2]
      simp
    · exact List.filter_sublist l
  have hperm := (List.mergeSort_perm l
    (fun a b => decide (a.current_burst ≤ b.current_burst))).filter
    (fun p => p.current_burst == c)
  have hsub2 := hsub.filter (fun p => p.current_burst == c)
  rw [List.filter_filter] at hsub2
  simp only [Bool.and_self] at hsub2
  exact (hsub2.eq_of_length hperm.length_eq.symm).symm

theorem sjfStep_ready_sortOutput (s : SchedState) :
    ∃ l, (sjfStep s).ready = sortByBurst l := by
  obtain ⟨rd, w, term, t, u⟩ := s
  cases rd with
  | nil => exact ⟨(update_waiting_processes w [] 1).2, rfl⟩
  | cons p rest =>
    simp only [sjfStep]
    split
    · exact ⟨_, rfl⟩
    · exact ⟨_, rfl⟩

theorem stepN_add_one (step : SchedState → SchedState) (k : Nat)
    (s : SchedState) : stepN step (k + 1) s = step (stepN step k s) := by
  induction k generalizing s with
  | zero => rfl
  | succ k ih =>
    show stepN step (k + 1) (step s) = step (stepN step (k + 1) s)
    rw [ih]
    rfl

/-- C6: in every SJF run, at the head of every loop iteration — in
particular immediately before every dispatch — the ready queue is sorted
ascending by `current_burst`: this holds for the initially populated
queue (`sjfInit` sorts it) and is re-established after every waiting
queue update, because both branches of `sjfStep` re-sort.  Moreover the
sort used is stable: the sublist of processes tied at any burst value
`c` is exactly the same, in the same order, before and after sorting
(Python's `sort` and `List.mergeSort` are both stable). -/
theorem sjf_ready_sorted (ps : List Process) (k : Nat) :
    List.Pairwise (fun a b => a.current_burst ≤ b.current_burst)
      ((stepN sjfStep k (sjfInit ps)).ready)
    ∧ ∀ (l : List Process) (c : Int),
        (sortByBurst l).filter (fun p => p.current_burst == c)
          = l.filter (fun p => p.current_burst == c) := by
  constructor
  · cases k with
    | zero => exact sortByBurst_sorted ps
    | succ k =>
      rw [stepN_add_one]
      obtain ⟨l, hl⟩ := sjfStep_ready_sortOutput (stepN sjfStep k (sjfInit ps))
      rw [hl]
      exact sortByBurst_sorted l
  · exact fun l c => sortByBurst_filter_burst l c

theorem fcfsStep_diff (s : SchedState) :
    (fcfsStep s).time - (fcfsStep s).cpu_util
      = s.time - s.cpu_util + (if s.ready.isEmpty then 1 else 0) := by
  obtain ⟨rd, w, term, t, u⟩ := s
  cases rd with
  | nil =>
    rw [fcfsStep_idle _ rfl]
    simp
    omega
  | cons p rest =>
    rw [fcfsStep_dispatch _ p rest rfl]
    split <;> simp

theorem sjfStep_diff (s : SchedState) :
    (sjfStep s).time - (sjfStep s).cpu_util
      = s.time - s.cpu_util + (if s.ready.isEmpty then 1 else 0) := by
  obtain ⟨rd, w, term, t, u⟩ := s
  cases rd with
  | nil =>
    simp [sjfStep]
    omega
  | cons p rest =>
    simp only [sjfStep]
    split <;> simp

theorem rrStep_diff (q : Int) (s : SchedState) :
    (rrStep q s).time - (rrStep q s).cpu_util
      = s.time - s.cpu_util + (if s.ready.isEmpty then 1 else 0) := by
  obtain ⟨rd, w, term, t, u⟩ := s
  cases rd with
  | nil =>
    simp [rrStep]
    omega
  | cons p rest =>
    simp only [rrStep]
    split
    · simp
    · split <;> simp

theorem stepN_cpu_le (step : SchedState → SchedState)
    (hstep : ∀ s, (step s).time - (step s).cpu_util
      = s.time - s.cpu_util + (if s.ready.isEmpty then 1 else 0))
    (k : Nat) (s : SchedState) (h : s.cpu_util ≤ s.time) :
    (stepN step k s).cpu_util ≤ (stepN step k s).time := by
  induction k generalizing s with
  | zero => exact h
  | succ k ih =>
    show (stepN step k (step s)).cpu_util ≤ (stepN step k (step s)).time
    apply ih
    have h2 := hstep s
    split at h2 <;> omega

theorem schedRun_diff (step : SchedState → SchedState)
    (hstep : ∀ s, (step s).time - (step s).cpu_util
      = s.time - s.cpu_util + (if s.ready.isEmpty then 1 else 0))
    (f : Nat) (s s' : SchedState) (h : schedRun step f s = some s') :
    s'.time - s'.cpu_util
      = s.time - s.cpu_util + (countIdleRun step f s : Int) := by
  induction f generalizing s with
  | zero =>
    rw [schedRun] at h
    split at h
    · cases h
      simp [countIdleRun]
    · cases h
  | succ f ih =>
    rw [schedRun] at h
    rw [countIdleRun]
    split at h
    · rename_i hd
      cases h
      rw [if_pos hd]
      simp
    · rename_i hd
      rw [if_neg hd]
      have h1 := ih (step s) h
      have h2 := hstep s
      by_cases hre : s.ready.isEmpty = true
      · rw [if_pos hre] at h2 ⊢
        push_cast
        omega
      · rw [if_neg hre] at h2 ⊢
        push_cast
        omega

/-- C8: in every FCFS, SJF and Round Robin run started with the clock
and CPU-utilization counters at 0, `cpu_util ≤ time` holds at every loop
iteration; and when the run converges, the two are equal at the end if
and only if the run performed no idle tick (no iteration entered with an
empty ready queue, which advances the clock by 1 and the utilization by
0 — `countIdleRun` counts exactly those iterations). -/
theorem cpu_util_le_total_time :
    (∀ ps k, (stepN fcfsStep k (fcfsInit ps)).cpu_util
        ≤ (stepN fcfsStep k (fcfsInit ps)).time)
    ∧ (∀ ps k, (stepN sjfStep k (sjfInit ps)).cpu_util
        ≤ (stepN sjfStep k (sjfInit ps)).time)
    ∧ (∀ q ps k, (stepN (rrStep q) k (rrInit ps 0 0)).cpu_util
        ≤ (stepN (rrStep q) k (rrInit ps 0 0)).time)
    ∧ (∀ ps f s', fcfsRun f (fcfsInit ps) = some s' →
        (s'.cpu_util = s'.time ↔ countIdleRun fcfsStep f (fcfsInit ps) = 0))
    ∧ (∀ ps f s', sjfRun f (sjfInit ps) = some s' →
        (s'.cpu_util = s'.time ↔ countIdleRun sjfStep f (sjfInit ps) = 0))
    ∧ (∀ q ps f s', rrRun q f (rrInit ps 0 0) = some s' →
        (s'.cpu_util = s'.time
          ↔ countIdleRun (rrStep q) f (rrInit ps 0 0) = 0)) := by
  refine ⟨?_, ?_, ?_, ?_, ?_, ?_⟩
  · intro ps k
    exact stepN_cpu_le fcfsStep fcfsStep_diff k _ le_rfl
  · intro ps k
    exact stepN_cpu_le sjfStep sjfStep_diff k _ le_rfl
  · intro q ps k
    exact stepN_cpu_le (rrStep q) (rrStep_diff q) k _ le_rfl
  · intro ps f s' h
    have hd := schedRun_diff fcfsStep fcfsStep_diff f _ _ h
    simp [fcfsInit] at hd ⊢
    omega
  · intro ps f s' h
    have hd := schedRun_diff sjfStep sjfStep_diff f _ _ h
    simp [sjfInit] at hd ⊢
    omega
  · intro q ps f s' h
    have hd := schedRun_diff (rrStep q) (rrStep_diff q) f _ _ h
    simp [rrInit] at hd ⊢
    omega

/-- Witness for C8 at a concrete converged FCFS run with no idle tick. -/
theorem cpu_util_le_total_time_witness :
    countIdleRun fcfsStep 2 (fcfsInit [⟨[2], "W", 0, 0, -1, 0, false⟩]) = 0 :=
  (cpu_util_le_total_time.2.2.2.1 [⟨[2], "W", 0, 0, -1, 0, false⟩] 2
    ⟨[], [], [⟨[2], "W", 0, 2, 0, 1, true⟩], 2, 2⟩ (by decide)).mp (by decide)

/-- Remaining work of a process: each burst not yet passed counts its
non-negative magnitude plus one unit for the index advance that retires
it.  Every scheduling step strictly decreases the total work of the live
processes or, for a zero-work dispatch, their number. -/
def procWork (p : Process) : Nat :=
  ((p.burst_times.drop p.current_burst_index).map (fun b => 1 + b.toNat)).sum

/-- Number of live (ready or waiting) processes. -/
def liveSize (s : SchedState) : Nat := s.ready.length + s.waiting.length

/-- Total remaining work of the live processes. -/
def liveWork (s : SchedState) : Nat :=
  (s.ready.map procWork).sum + (s.waiting.map procWork).sum

/-- A fuel bound sufficient for a scheduling loop to converge: the pair
`(liveWork, liveSize)` decreases lexicographically at every loop
iteration, and this scalar bounds the number of such decreases. -/
def schedMeasure (s : SchedState) : Nat :=
  liveWork s * (liveSize s + 1) + liveSize s

/-- The input contract's burst condition: all burst values non-negative. -/
abbrev ProcOk (p : Process) : Prop := ∀ b ∈ p.burst_times, 0 ≤ b

/-- Input contract for a scheduling run: every process has non-negative
bursts and an even (CPU-parity) burst index — fresh processes start at
index 0. -/
abbrev InputOk (ps : List Process) : Prop :=
  ∀ p ∈ ps, p.current_burst_index % 2 = 0 ∧ ProcOk p

/-- The run invariant: ready processes await CPU (even index) with
non-negative bursts; waiting processes await I/O (odd index, strictly
inside their burst list) with non-negative bursts. -/
abbrev SchedInv (s : SchedState) : Prop :=
  (∀ p ∈ s.ready, p.current_burst_index % 2 = 0 ∧ ProcOk p)
  ∧ ∀ p ∈ s.waiting, p.current_burst_index % 2 = 1
      ∧ p.current_burst_index < p.burst_times.length ∧ ProcOk p

theorem procWork_eq_zero (p : Process)
    (h : p.burst_times.length ≤ p.current_burst_index) : procWork p = 0 := by
  rw [procWork, List.drop_eq_nil_of_le h]
  rfl

theorem procWork_split (p : Process)
    (h : p.current_burst_index < p.burst_times.length) :
    procWork p = 1 + p.current_burst.toNat + procWork p.advance_burst := by
  have hcb : p.current_burst = p.burst_times[p.current_burst_index] := by
    rw [Process.current_burst, List.getD_eq_getElem?_getD,
      List.getElem?_eq_getElem h]
    rfl
  rw [procWork, List.drop_eq_getElem_cons h, List.map_cons, List.sum_cons, hcb]
  rfl

theorem procWork_respSet (t : Int) (p : Process) :
    procWork (respSet t p) = procWork p := by
  rw [respSet]
  split <;> rfl

theorem procOk_current_burst_nonneg (p : Process) (h : ProcOk p) :
    0 ≤ p.current_burst := by
  rw [Process.current_burst, List.getD_eq_getElem?_getD]
  by_cases hlt : p.current_burst_index < p.burst_times.length
  · rw [List.getElem?_eq_getElem hlt]
    exact h _ (List.getElem_mem hlt)
  · rw [List.getElem?_eq_none (by omega)]
    simp

theorem reduce_procWork_le (p : Process) (dt : Int) (hdt : 0 ≤ dt)
    (hok : ProcOk p) :
    procWork (p.reduce_current_burst dt).2 ≤ procWork p := by
  by_cases hlen : p.current_burst_index ≥ p.burst_times.length
  · rw [reduce_current_burst_complete p dt hlen]
  · rw [Nat.not_le] at hlen
    have hb : 0 ≤ p.burst_times.getD p.current_burst_index 0 := by
      rw [List.getD_eq_getElem?_getD, List.getElem?_eq_getElem hlen]
      exact hok _ (List.getElem_mem hlen)
    have hcb : p.current_burst = p.burst_times.getD p.current_burst_index 0 := rfl
    have hsplit := procWork_split p hlen
    have hdrop : ∀ v : Int,
        ((p.burst_times.set p.current_burst_index v).drop
          (p.current_burst_index + 1)) = p.burst_times.drop
            (p.current_burst_index + 1) := by
      intro v
      rw [List.drop_set, if_pos (by omega)]
    simp only [Process.reduce_current_burst]
    rw [if_neg (by omega)]
    split
    · -- burst drained: index advances; remaining work is the tail
      show ((( p.burst_times.set p.current_burst_index _).drop
          (p.current_burst_index + 1)).map (fun b => 1 + b.toNat)).sum ≤ _
      rw [hdrop]
      have : procWork p.advance_burst
          = ((p.burst_times.drop (p.current_burst_index + 1)).map
              (fun b => 1 + b.toNat)).sum := rfl
      omega
    · -- burst only shrank: same index, smaller head value
      show (((p.burst_times.set p.current_burst_index
          (p.burst_times.getD p.current_burst_index 0
            - min dt (p.burst_times.getD p.current_burst_index 0))).drop
          p.current_burst_index).map (fun b => 1 + b.toNat)).sum ≤ _
      have hlen2 : p.current_burst_index
          < (p.burst_times.set p.current_burst_index
              (p.burst_times.getD p.current_burst_index 0
                - min dt (p.burst_times.getD p.current_burst_index 0))).length := by
        rw [List.length_set]
        exact hlen
      rw [List.drop_eq_getElem_cons hlen2, List.map_cons, List.sum_cons]
      rw [List.getElem_set_self, hdrop]
      have htail : procWork p.advance_burst
          = ((p.burst_times.drop (p.current_burst_index + 1)).map
              (fun b => 1 + b.toNat)).sum := rfl
      rw [hcb] at hsplit
      omega

theorem reduce_procWork_lt_one (p : Process)
    (hlen : p.current_burst_index < p.burst_times.length) (hok : ProcOk p) :
    procWork (p.reduce_current_burst 1).2 < procWork p := by
  have hb : 0 ≤ p.burst_times.getD p.current_burst_index 0 := by
    rw [List.getD_eq_getElem?_getD, List.getElem?_eq_getElem hlen]
    exact hok _ (List.getElem_mem hlen)
  have hcb : p.current_burst = p.burst_times.getD p.current_burst_index 0 := rfl
  have hsplit := procWork_split p hlen
  have hdrop : ∀ v : Int,
      ((p.burst_times.set p.current_burst_index v).drop
        (p.current_burst_index + 1)) = p.burst_times.drop
          (p.current_burst_index + 1) := by
    intro v
    rw [List.drop_set, if_pos (by omega)]
  simp only [Process.reduce_current_burst]
  rw [if_neg (by omega)]
  split
  · rename_i hz
    show ((( p.burst_times.set p.current_burst_index _).drop
        (p.current_burst_index + 1)).map (fun b => 1 + b.toNat)).sum < _
    rw [hdrop]
    have : procWork p.advance_burst
        = ((p.burst_times.drop (p.current_burst_index + 1)).map
            (fun b => 1 + b.toNat)).sum := rfl
    omega
  · rename_i hz
    -- burst not drained by one unit, so the old value was at least 1 and
    -- shrank by exactly 1
    have hget0 : (p.burst_times.set p.current_burst_index
        (p.burst_times.getD p.current_burst_index 0
          - min 1 (p.burst_times.getD p.current_burst_index 0))).getD
          p.current_burst_index 0
        = p.burst_times.getD p.current_burst_index 0
          - min 1 (p.burst_times.getD p.current_burst_index 0) := by
      rw [List.getD_eq_getElem?_getD, List.getElem?_set_self hlen]
      rfl
    rw [hget0] at hz
    have hb1 : 1 ≤ p.burst_times.getD p.current_burst_index 0 := by omega
    show (((p.burst_times.set p.current_burst_index
        (p.burst_times.getD p.current_burst_index 0
          - min 1 (p.burst_times.getD p.current_burst_index 0))).drop
        p.current_burst_index).map (fun b => 1 + b.toNat)).sum < _
    have hlen2 : p.current_burst_index
        < (p.burst_times.set p.current_burst_index
            (p.burst_times.getD p.current_burst_index 0
              - min 1 (p.burst_times.getD p.current_burst_index 0))).length := by
      rw [List.length_set]
      exact hlen
    rw [List.drop_eq_getElem_cons hlen2, List.map_cons, List.sum_cons]
    rw [List.getElem_set_self, hdrop]
    have htail : procWork p.advance_burst
        = ((p.burst_times.drop (p.current_burst_index + 1)).map
            (fun b => 1 + b.toNat)).sum := rfl
    rw [hcb] at hsplit
    omega

theorem reduce_procOk (p : Process) (dt : Int) (hok : ProcOk p) :
    ProcOk (p.reduce_current_burst dt).2 := by
  have hsetOk : ∀ v : Int, 0 ≤ v →
      ∀ b ∈ p.burst_times.set p.current_burst_index v, 0 ≤ b := by
    intro v hv b hb
    rcases List.mem_or_eq_of_mem_set hb with hmem | rfl
    · exact hok b hmem
    · exact hv
  by_cases hlen : p.current_burst_index ≥ p.burst_times.length
  · rw [reduce_current_burst_complete p dt hlen]
    exact hok
  · rw [Nat.not_le] at hlen
    have hb : 0 ≤ p.burst_times.getD p.current_burst_index 0 := by
      rw [List.getD_eq_getElem?_getD, List.getElem?_eq_getElem hlen]
      exact hok _ (List.getElem_mem hlen)
    simp only [Process.reduce_current_burst]
    rw [if_neg (by omega)]
    split <;> exact hsetOk _ (by omega)

theorem reduce_length (p : Process) (dt : Int) :
    (p.reduce_current_burst dt).2.burst_times.length
      = p.burst_times.length := by
  simp only [Process.reduce_current_burst]
  split
  · rfl
  · split <;> simp [Process.advance_burst, List.length_set]

theorem ioSums (dt : Int) (w : List Process) :
    ((ioStays dt w).map procWork).sum + ((ioArrivals dt w).map procWork).sum
      = (w.map (fun p => procWork (touchWaiting dt p))).sum := by
  induction w with
  | nil => rfl
  | cons p rest ih =>
    by_cases h : (touchWaiting dt p).current_burst_index % 2 = 0
    · have h1 : ioStays dt (p :: rest) = ioStays dt rest := by
        simp [ioStays, List.filter_cons, h]
      have h2 : ioArrivals dt (p :: rest)
          = touchWaiting dt p :: ioArrivals dt rest := by
        simp [ioArrivals, List.filter_cons, h]
      rw [h1, h2, List.map_cons, List.sum_cons, List.map_cons, List.sum_cons]
      omega
    · have hodd : (touchWaiting dt p).current_burst_index % 2 = 1 := by omega
      have h1 : ioStays dt (p :: rest)
          = touchWaiting dt p :: ioStays dt rest := by
        simp [ioStays, List.filter_cons, hodd]
      have h2 : ioArrivals dt (p :: rest) = ioArrivals dt rest := by
        simp [ioArrivals, List.filter_cons, hodd]
      rw [h1, h2, List.map_cons, List.sum_cons, List.map_cons, List.sum_cons]
      omega

theorem ioLens (dt : Int) (w : List Process) :
    (ioStays dt w).length + (ioArrivals dt w).length = w.length := by
  induction w with
  | nil => rfl
  | cons p rest ih =>
    by_cases h : (touchWaiting dt p).current_burst_index % 2 = 0
    · have h1 : ioStays dt (p :: rest) = ioStays dt rest := by
        simp [ioStays, List.filter_cons, h]
      have h2 : ioArrivals dt (p :: rest)
          = touchWaiting dt p :: ioArrivals dt rest := by
        simp [ioArrivals, List.filter_cons, h]
      rw [h1, h2, List.length_cons, List.length_cons]
      omega
    · have hodd : (touchWaiting dt p).current_burst_index % 2 = 1 := by omega
      have h1 : ioStays dt (p :: rest)
          = touchWaiting dt p :: ioStays dt rest := by
        simp [ioStays, List.filter_cons, hodd]
      have h2 : ioArrivals dt (p :: rest) = ioArrivals dt rest := by
        simp [ioArrivals, List.filter_cons, hodd]
      rw [h1, h2, List.length_cons, List.length_cons]
      omega

theorem touch_sum_le (dt : Int) (hdt : 0 ≤ dt) (w : List Process)
    (hok : ∀ p ∈ w, ProcOk p) :
    (w.map (fun p => procWork (touchWaiting dt p))).sum
      ≤ (w.map procWork).sum := by
  apply List.sum_le_sum
  intro p hp
  show procWork (p.reduce_current_burst dt).2 ≤ procWork p
  exact reduce_procWork_le p dt hdt (hok p hp)

theorem touch_sum_lt_one (w : List Process) (hne : w ≠ [])
    (hinv : ∀ p ∈ w, p.current_burst_index < p.burst_times.length
      ∧ ProcOk p) :
    (w.map (fun p => procWork (touchWaiting 1 p))).sum
      < (w.map procWork).sum := by
  apply List.sum_lt_sum
  · intro p hp
    show procWork (p.reduce_current_burst 1).2 ≤ procWork p
    exact reduce_procWork_le p 1 (by omega) (hinv p hp).2
  · cases w with
    | nil => exact absurd rfl hne
    | cons p rest =>
      refine ⟨p, List.mem_cons_self p rest, ?_⟩
      show procWork (p.reduce_current_burst 1).2 < procWork p
      exact reduce_procWork_lt_one p (hinv p (List.mem_cons_self p rest)).1
        (hinv p (List.mem_cons_self p rest)).2

theorem update_inv (dt : Int) (w : List Process)
    (hw : ∀ p ∈ w, p.current_burst_index % 2 = 1
      ∧ p.current_burst_index < p.burst_times.length ∧ ProcOk p) :
    (∀ p ∈ ioStays dt w, p.current_burst_index % 2 = 1
      ∧ p.current_burst_index < p.burst_times.length ∧ ProcOk p)
    ∧ (∀ p ∈ ioArrivals dt w,
        p.current_burst_index % 2 = 0 ∧ ProcOk p) := by
  constructor
  · intro p' hp'
    rw [ioStays, List.mem_filter] at hp'
    obtain ⟨hmem, hpar⟩ := hp'
    rw [List.mem_map] at hmem
    obtain ⟨p, hp, rfl⟩ := hmem
    obtain ⟨hodd, hlen, hok⟩ := hw p hp
    have hpar' : (touchWaiting dt p).current_burst_index % 2 = 1 := by
      simpa using hpar
    have hidx : (touchWaiting dt p).current_burst_index
        = (p.reduce_current_burst dt).2.current_burst_index := rfl
    have hdix := reduce_index p dt
    have hL : (touchWaiting dt p).burst_times.length
        = p.burst_times.length := reduce_length p dt
    refine ⟨hpar', by omega, ?_⟩
    show ProcOk (p.reduce_current_burst dt).2
    exact reduce_procOk p dt hok
  · intro p' hp'
    rw [ioArrivals, List.mem_filter] at hp'
    obtain ⟨hmem, hpar⟩ := hp'
    rw [List.mem_map] at hmem
    obtain ⟨p, hp, rfl⟩ := hmem
    refine ⟨by simpa using hpar, ?_⟩
    show ProcOk (p.reduce_current_burst dt).2
    exact reduce_procOk p dt (hw p hp).2.2

theorem fcfsStep_decrease (s : SchedState) (hinv : SchedInv s)
    (hnd : schedDone s = false) :
    SchedInv (fcfsStep s)
    ∧ liveWork (fcfsStep s) ≤ liveWork s
    ∧ liveSize (fcfsStep s) ≤ liveSize s
    ∧ (liveWork (fcfsStep s) < liveWork s
        ∨ liveSize (fcfsStep s) < liveSize s) := by
  obtain ⟨rd, w, term, t, u⟩ := s
  obtain ⟨hready, hwait⟩ := hinv
  cases rd with
  | nil =>
    have hw_ne : w ≠ [] := by
      intro h0
      subst h0
      simp [schedDone] at hnd
    rw [fcfsStep_idle ⟨[], w, term, t, u⟩ rfl]
    have hui := update_inv 1 w hwait
    have hsums := ioSums 1 w
    have hlens := ioLens 1 w
    have hlt := touch_sum_lt_one w hw_ne
      (fun p hp => ⟨(hwait p hp).2.1, (hwait p hp).2.2⟩)
    refine ⟨⟨fun p hp => hui.2 p hp, fun p hp => hui.1 p hp⟩, ?_, ?_, Or.inl ?_⟩
    · simp [liveWork]
      omega
    · simp [liveSize]
      omega
    · simp [liveWork]
      omega
  | cons p rest =>
    obtain ⟨hpev, hpok⟩ := hready p (List.mem_cons_self p rest)
    have hrs := respSet_burst_fields t p
    have hbt : 0 ≤ (respSet t p).current_burst := by
      rw [hrs.2.2.1]
      exact procOk_current_burst_nonneg p hpok
    rw [fcfsStep_dispatch ⟨p :: rest, w, term, t, u⟩ p rest rfl]
    dsimp only
    have hui := update_inv (respSet t p).current_burst w hwait
    have hsums := ioSums (respSet t p).current_burst w
    have hlens := ioLens (respSet t p).current_burst w
    have htle := touch_sum_le (respSet t p).current_burst hbt w
      (fun p' hp' => (hwait p' hp').2.2)
    have hlenp2 : (respSet t p).advance_burst.burst_times.length
        = p.burst_times.length := by
      show (respSet t p).burst_times.length = p.burst_times.length
      rw [hrs.1]
    have hidxp2 : (respSet t p).advance_burst.current_burst_index
        = p.current_burst_index + 1 := by
      show (respSet t p).current_burst_index + 1 = p.current_burst_index + 1
      rw [hrs.2.1]
    have hokp2 : ProcOk (respSet t p).advance_burst := by
      show ∀ b ∈ (respSet t p).burst_times, 0 ≤ b
      rw [hrs.1]
      exact hpok
    split
    · rename_i hcomp
      refine ⟨⟨?_, fun p' hp' => hui.1 p' hp'⟩, ?_, ?_, Or.inr ?_⟩
      · intro p' hp'
        dsimp only at hp'
        rw [List.mem_append] at hp'
        rcases hp' with h' | h'
        · exact hready p' (List.mem_cons_of_mem p h')
        · exact hui.2 p' h'
      · simp [liveWork]
        omega
      · simp [liveSize]
        omega
      · simp [liveSize]
        omega
    · rename_i hncomp
      have hlt2 : p.current_burst_index < p.burst_times.length := by
        rw [hidxp2, hlenp2] at hncomp
        omega
    -- the dispatched process's work splits off its current burst
      have hsplit : procWork p
          = 1 + p.current_burst.toNat
            + procWork (respSet t p).advance_burst := by
        have h0 := procWork_split (respSet t p)
          (by rw [hrs.2.1, hrs.1]; exact hlt2)
        rw [procWork_respSet, hrs.2.2.1] at h0
        exact h0
      refine ⟨⟨?_, ?_⟩, ?_, ?_, Or.inl ?_⟩
      · intro p' hp'
        dsimp only at hp'
        rw [List.mem_append] at hp'
        rcases hp' with h' | h'
        · exact hready p' (List.mem_cons_of_mem p h')
        · exact hui.2 p' h'
      · intro p' hp'
        dsimp only at hp'
        rw [List.mem_append] at hp'
        rcases hp' with h' | h'
        · exact hui.1 p' h'
        · rw [List.mem_singleton] at h'
          subst h'
          refine ⟨by omega, by omega, hokp2⟩
      · simp [liveWork]
        omega
      · simp [liveSize]
        omega
      · simp [liveWork]
        omega

theorem rrStep_eq_fcfsStep_idle (q : Int) (s : SchedState)
    (hr : s.ready = []) : rrStep q s = fcfsStep s := by
  rw [rrStep_idle q s hr, fcfsStep_idle s hr]

theorem rrStep_eq_fcfsStep_complete (q : Int) (s : SchedState) (p : Process)
    (rest : List Process) (hr : s.ready = p :: rest)
    (hql : ¬ q < (respSet s.time p).current_burst) :
    rrStep q s = fcfsStep s := by
  rw [rrStep_complete q s p rest hr hql, fcfsStep_dispatch s p rest hr]

theorem rrStep_decrease (q : Int) (hq : 0 < q) (s : SchedState)
    (hinv : SchedInv s) (hnd : schedDone s = false) :
    SchedInv (rrStep q s)
    ∧ liveWork (rrStep q s) ≤ liveWork s
    ∧ liveSize (rrStep q s) ≤ liveSize s
    ∧ (liveWork (rrStep q s) < liveWork s
        ∨ liveSize (rrStep q s) < liveSize s) := by
  match hr : s.ready with
  | [] =>
    rw [rrStep_eq_fcfsStep_idle q s hr]
    exact fcfsStep_decrease s hinv hnd
  | p :: rest =>
    by_cases hql : q < (respSet s.time p).current_burst
    · obtain ⟨hready, hwait⟩ := hinv
      obtain ⟨hpev, hpok⟩ := hready p (by rw [hr]; exact List.mem_cons_self p rest)
      have hrs := respSet_burst_fields s.time p
      rw [rrStep_preempt q s p rest hr hql]
      have hcbpos : (respSet s.time p).current_burst ≠ 0 := by omega
      have hlt2 : (respSet s.time p).current_burst_index
          < (respSet s.time p).burst_times.length :=
        current_burst_pos_index_lt _ hcbpos
      have hcb2 := rrPreempted_current_burst q s.time p hlt2
      have hsplit1 := procWork_split (respSet s.time p) hlt2
      have hlenpre : (rrPreempted q s.time p).current_burst_index
          < (rrPreempted q s.time p).burst_times.length := by
        show (respSet s.time p).current_burst_index
            < ((respSet s.time p).burst_times.set _ _).length
        rw [List.length_set]
        exact hlt2
      have hsplit2 := procWork_split (rrPreempted q s.time p) hlenpre
      have htails : procWork (rrPreempted q s.time p).advance_burst
          = procWork (respSet s.time p).advance_burst := by
        show ((((respSet s.time p).burst_times.set
            (respSet s.time p).current_burst_index
            ((respSet s.time p).current_burst - q)).drop
            ((respSet s.time p).current_burst_index + 1)).map
              (fun b => 1 + b.toNat)).sum
          = (((respSet s.time p).burst_times.drop
              ((respSet s.time p).current_burst_index + 1)).map
                (fun b => 1 + b.toNat)).sum
        rw [List.drop_set, if_pos (by omega)]
      have hworkp2 : procWork (rrPreempted q s.time p) < procWork p := by
        have h0 : procWork (rrPreempted q s.time p)
            < procWork (respSet s.time p) := by
          rw [hsplit1, hsplit2, htails, hcb2]
          omega
        rw [procWork_respSet] at h0
        exact h0
      have hokpre : ProcOk (rrPreempted q s.time p) := by
        show ∀ b ∈ (respSet s.time p).burst_times.set
            (respSet s.time p).current_burst_index
            ((respSet s.time p).current_burst - q), 0 ≤ b
        intro b hb
        rcases List.mem_or_eq_of_mem_set hb with hmem | rfl
        · rw [hrs.1] at hmem
          exact hpok b hmem
        · omega
      have hevpre : (rrPreempted q s.time p).current_burst_index % 2 = 0 := by
        rw [rrPreempted_index]
        exact hpev
      have hui := update_inv q s.waiting hwait
      have hsums := ioSums q s.waiting
      have hlens := ioLens q s.waiting
      have htle := touch_sum_le q (by omega) s.waiting
        (fun p' hp' => (hwait p' hp').2.2)
      refine ⟨⟨?_, fun p' hp' => hui.1 p' hp'⟩, ?_, ?_, Or.inl ?_⟩
      · intro p' hp'
        dsimp only at hp'
        rw [List.mem_append, List.mem_append] at hp'
        rcases hp' with (h' | h') | h'
        · exact hready p' (by rw [hr]; exact List.mem_cons_of_mem p h')
        · rw [List.mem_singleton] at h'
          subst h'
          exact ⟨hevpre, hokpre⟩
        · exact hui.2 p' h'
      · simp [liveWork, hr]
        omega
      · simp [liveSize, hr]
        omega
      · simp [liveWork, hr]
        omega
    · rw [rrStep_eq_fcfsStep_complete q s p rest hr hql]
      exact fcfsStep_decrease s hinv hnd

theorem sjfStep_eq (s : SchedState) :
    sjfStep s = ⟨sortByBurst (fcfsStep s).ready, (fcfsStep s).waiting,
      (fcfsStep s).terminated, (fcfsStep s).time, (fcfsStep s).cpu_util⟩ := by
  obtain ⟨rd, w, term, t, u⟩ := s
  cases rd with
  | nil => rfl
  | cons p rest =>
    simp only [sjfStep, fcfsStep]
    split <;> rfl

theorem sjfStep_decrease (s : SchedState) (hinv : SchedInv s)
    (hnd : schedDone s = false) :
    SchedInv (sjfStep s)
    ∧ liveWork (sjfStep s) ≤ liveWork s
    ∧ liveSize (sjfStep s) ≤ liveSize s
    ∧ (liveWork (sjfStep s) < liveWork s
        ∨ liveSize (sjfStep s) < liveSize s) := by
  obtain ⟨hi, hw, hl, hs⟩ := fcfsStep_decrease s hinv hnd
  rw [sjfStep_eq]
  have hperm : List.Perm (sortByBurst (fcfsStep s).ready) (fcfsStep s).ready :=
    List.mergeSort_perm _ _
  have hWork : liveWork ⟨sortByBurst (fcfsStep s).ready, (fcfsStep s).waiting,
      (fcfsStep s).terminated, (fcfsStep s).time, (fcfsStep s).cpu_util⟩
      = liveWork (fcfsStep s) := by
    simp only [liveWork]
    rw [(hperm.map procWork).sum_eq]
  have hSize : liveSize ⟨sortByBurst (fcfsStep s).ready, (fcfsStep s).waiting,
      (fcfsStep s).terminated, (fcfsStep s).time, (fcfsStep s).cpu_util⟩
      = liveSize (fcfsStep s) := by
    simp only [liveSize]
    rw [hperm.length_eq]
  refine ⟨⟨?_, ?_⟩, ?_, ?_, ?_⟩
  · intro p hp
    exact hi.1 p (hperm.mem_iff.mp hp)
  · intro p hp
    exact hi.2 p hp
  · rw [hWork]
    exact hw
  · rw [hSize]
    exact hl
  · rw [hWork, hSize]
    exact hs

theorem measure_lt (s' s : SchedState) (hw : liveWork s' ≤ liveWork s)
    (hl : liveSize s' ≤ liveSize s)
    (h : liveWork s' < liveWork s ∨ liveSize s' < liveSize s) :
    schedMeasure s' < schedMeasure s := by
  rw [schedMeasure, schedMeasure]
  rcases h with h | h
  · obtain ⟨k, hk⟩ : ∃ k, liveWork s = k + 1 := ⟨liveWork s - 1, by omega⟩
    have h1 : liveWork s' * (liveSize s' + 1) ≤ k * (liveSize s + 1) :=
      Nat.mul_le_mul (by omega) (by omega)
    rw [hk, Nat.succ_mul]
    omega
  · have h1 : liveWork s' * (liveSize s' + 1)
        ≤ liveWork s * (liveSize s + 1) :=
      Nat.mul_le_mul hw (by omega)
    omega

theorem done_of_liveSize_eq_zero (s : SchedState) (h : liveSize s = 0) :
    schedDone s = true := by
  rw [liveSize] at h
  rw [schedDone, Bool.and_eq_true, List.isEmpty_iff, List.isEmpty_iff]
  constructor
  · exact List.length_eq_zero.mp (by omega)
  · exact List.length_eq_zero.mp (by omega)

/-- Any scheduling loop whose step decreases `(liveWork, liveSize)`
lexicographically while preserving the run invariant converges within
`schedMeasure` iterations. -/
theorem schedRun_terminates (step : SchedState → SchedState)
    (hdec : ∀ s, SchedInv s → schedDone s = false →
      SchedInv (step s) ∧ liveWork (step s) ≤ liveWork s
      ∧ liveSize (step s) ≤ liveSize s
      ∧ (liveWork (step s) < liveWork s ∨ liveSize (step s) < liveSize s))
    (n : Nat) : ∀ s : SchedState, SchedInv s → schedMeasure s ≤ n →
      (schedRun step n s).isSome = true := by
  induction n with
  | zero =>
    intro s hinv hm
    rw [schedRun]
    by_cases hd : schedDone s = true
    · rw [if_pos hd]
      rfl
    · rw [schedMeasure] at hm
      exact absurd (done_of_liveSize_eq_zero s (by omega)) hd
  | succ n ih =>
    intro s hinv hm
    rw [schedRun]
    by_cases hd : schedDone s = true
    · rw [if_pos hd]
      rfl
    · rw [if_neg hd]
      have hd' : schedDone s = false := by
        revert hd
        cases schedDone s <;> simp
      obtain ⟨hinv', hw, hl, hstrict⟩ := hdec s hinv hd'
      apply ih (step s) hinv'
      have := measure_lt (step s) s hw hl hstrict
      omega

theorem inputOk_inv (ps term : List Process) (t u : Int) (h : InputOk ps) :
    SchedInv ⟨ps, [], term, t, u⟩ := by
  constructor
  · intro p hp
    exact h p hp
  · intro p hp
    simp at hp

theorem fcfs_terminates (ps : List Process) (h : InputOk ps) :
    (fcfsRun (schedMeasure (fcfsInit ps)) (fcfsInit ps)).isSome = true :=
  schedRun_terminates fcfsStep fcfsStep_decrease _ (fcfsInit ps)
    (inputOk_inv ps [] 0 0 h) le_rfl

theorem sjf_terminates (ps : List Process) (h : InputOk ps) :
    (sjfRun (schedMeasure (sjfInit ps)) (sjfInit ps)).isSome = true := by
  apply schedRun_terminates sjfStep sjfStep_decrease _ (sjfInit ps) _ le_rfl
  constructor
  · intro p hp
    have hmem : p ∈ ps := (List.mergeSort_perm ps _).mem_iff.mp hp
    exact h p hmem
  · intro p hp
    simp [sjfInit] at hp

theorem rr_terminates (q : Int) (ps : List Process) (hq : 0 < q)
    (h : InputOk ps) :
    (rrRun q (schedMeasure (rrInit ps 0 0)) (rrInit ps 0 0)).isSome = true :=
  schedRun_terminates (rrStep q) (rrStep_decrease q hq) _ (rrInit ps 0 0)
    (inputOk_inv ps [] 0 0 h) le_rfl

theorem mlfq_terminates (ps : List Process) (h : InputOk ps) :
    (mlfqRun (schedMeasure (rrInit ps 0 0)) ps).isSome = true := by
  have h1 := rr_terminates 5 ps (by omega) h
  obtain ⟨s1, hs1⟩ := Option.isSome_iff_exists.mp h1
  obtain ⟨hr, hw⟩ := schedRun_done (rrStep 5) _ _ _ hs1
  rw [mlfqRun, hs1]
  have h2 := schedRun_of_done (rrStep 10) (schedMeasure (rrInit ps 0 0))
    (rrInit s1.ready s1.time s1.cpu_util)
    (by simp [schedDone, rrInit, hr])
  have h3 := schedRun_of_done fcfsStep (schedMeasure (rrInit ps 0 0))
    (fcfsInit s1.ready) (by simp [schedDone, fcfsInit, hr])
  simp only [rrInit, rrRun, fcfsRun, fcfsInit] at h2 h3 ⊢
  rw [h2]
  dsimp only
  rw [h3]
  rfl

/-- C3 amended: malformed inputs — a process with an empty burst
sequence, or one whose last burst is an I/O burst — do not cause
non-convergence.  For every input list of processes with non-negative
bursts and even (for fresh processes, zero) burst indexes, which
includes all such malformed inputs, the FCFS, SJF and Round Robin
(quantum > 0) loops and the MLFQ composition all converge within
`schedMeasure` iterations, and every converged run ends with both the
ready and the waiting queue empty.  Concretely: a process whose last
burst is I/O re-enters the ready queue when that I/O drains (its burst
index, then equal to the list length, is even) and is terminated by a
zero-length dispatch, and an empty-burst process is terminated by a
zero-length dispatch immediately. -/
theorem malformed_inputs_converge :
    (∀ ps, InputOk ps →
      (fcfsRun (schedMeasure (fcfsInit ps)) (fcfsInit ps)).isSome = true)
    ∧ (∀ ps, InputOk ps →
      (sjfRun (schedMeasure (sjfInit ps)) (sjfInit ps)).isSome = true)
    ∧ (∀ q ps, 0 < q → InputOk ps →
      (rrRun q (schedMeasure (rrInit ps 0 0)) (rrInit ps 0 0)).isSome = true)
    ∧ (∀ ps, InputOk ps →
      (mlfqRun (schedMeasure (rrInit ps 0 0)) ps).isSome = true)
    ∧ (∀ (step : SchedState → SchedState) (f : Nat) (s s' : SchedState),
        schedRun step f s = some s' → s'.ready = [] ∧ s'.waiting = [])
    ∧ fcfsRun 6 (fcfsInit [⟨[2, 3], "B", 0, 0, -1, 0, false⟩])
      = some ⟨[], [], [⟨[2, 0], "B", 3, 5, 0, 3, true⟩], 5, 2⟩
    ∧ rrRun 5 2 (rrInit [⟨[], "E", 0, 0, -1, 0, false⟩] 0 0)
      = some ⟨[], [], [⟨[], "E", 0, 0, 0, 1, true⟩], 0, 0⟩ :=
  ⟨fcfs_terminates, sjf_terminates, rr_terminates, mlfq_terminates,
    schedRun_done, by decide, by decide⟩

/-- Witness for C3's amended claim: the universal convergence theorem
applied to the concrete trailing-I/O input [2, 3]. -/
theorem malformed_inputs_converge_witness :
    (fcfsRun (schedMeasure (fcfsInit [⟨[2, 3], "W3", 0, 0, -1, 0, false⟩]))
      (fcfsInit [⟨[2, 3], "W3", 0, 0, -1, 0, false⟩])).isSome = true :=
  malformed_inputs_converge.1 [⟨[2, 3], "W3", 0, 0, -1, 0, false⟩]
    (by decide)

/-- C1 (code bug witness): an MLFQ run on a non-empty input returns an
empty terminated collection.  The RR(5) pass already runs its population
to completion, its local terminated list is discarded, and the final
FCFS pass — which receives an empty queue and resets the counters to
zero — supplies MLFQ's return value, so MLFQ reports no terminated
processes (and clock 0, utilization 0) for a one-process input. -/
theorem mlfq_returns_empty :
    mlfqRun 4 [⟨[2], "p1", 0, 0, -1, 0, false⟩] = some ([], 0, 0) := by decide
